import Mathlib

/-!
Shallow embedding of the SiliconBench execution/orchestration core
(`benchmark_engine.py`, `workloads_mc.py`) and proofs about it.

Python floats are modelled as rationals (`ℚ`), Python machine ints as `ℤ`/`ℕ`,
Python's `dict` result maps as insertion-ordered association lists, and the
uncaught-exception path of `run_suite` as `Except`.
-/

/-- Python's `int(...)` applied to a float/rational: truncation toward zero. -/
def pyint (q : ℚ) : ℤ := if q < 0 then ⌈q⌉ else ⌊q⌋

/-- `BenchmarkEngine.calculate_score` (benchmark_engine.py lines 39-42):
`if actual_time <= 0: return 0` and otherwise
`int((baseline_time / actual_time) * 1000 * scale_factor)`. -/
def calculate_score (baseline_time actual_time scale_factor : ℚ) : ℤ :=
  if actual_time ≤ 0 then 0 else pyint (baseline_time / actual_time * 1000 * scale_factor)

theorem pyint_of_nonneg {q : ℚ} (h : 0 ≤ q) : pyint q = ⌊q⌋ := by
  unfold pyint
  rw [if_neg (not_lt.mpr h)]

theorem pyint_intCast (k : ℤ) : pyint (k : ℚ) = k := by
  unfold pyint
  split <;> simp

/-- C1: `calculate_score` returns `0` whenever `actual ≤ 0`, and returns
`⌊(baseline / actual) * 1000 * scale⌋` whenever `baseline > 0`, `actual > 0`
and `scale ≥ 1`; it is a total (pure) function. -/
theorem calculate_score_spec (baseline actual scale : ℚ) :
    (actual ≤ 0 → calculate_score baseline actual scale = 0) ∧
    (0 < baseline → 0 < actual → 1 ≤ scale →
      calculate_score baseline actual scale = ⌊baseline / actual * 1000 * scale⌋) := by
  constructor
  · intro h
    unfold calculate_score
    rw [if_pos h]
  · intro hb ha hs
    unfold calculate_score
    rw [if_neg (not_le.mpr ha)]
    refine pyint_of_nonneg ?_
    have h1 : 0 ≤ baseline / actual := le_of_lt (div_pos hb ha)
    nlinarith

/-- Witness for C1 at concrete inputs: a degenerate timing scores `0`, and
baseline `1/20` over actual `1/40` at scale `1` scores `2000`. -/
theorem calculate_score_spec_witness :
    calculate_score 1 (-1) 5 = 0 ∧ calculate_score (1/20) (1/40) 1 = 2000 := by
  constructor
  · exact (calculate_score_spec 1 (-1) 5).1 (by norm_num)
  · rw [(calculate_score_spec (1/20) (1/40) 1).2 (by norm_num) (by norm_num) (by norm_num)]
    have h : (1/20 : ℚ) / (1/40) * 1000 * 1 = ((2000 : ℤ) : ℚ) := by norm_num
    rw [h, Int.floor_intCast]

/-- C2 fails on the code: with `baseline = 3`, `actual = 2000` the pre-floor
value at scale 1 is `1.5`, so doubling the scale gives `3`, not `2 · 1`. -/
theorem calculate_score_scale_counterexample :
    calculate_score 3 2000 2 = 3 ∧ 2 * calculate_score 3 2000 1 = 2 ∧
      calculate_score 3 2000 2 ≠ 2 * calculate_score 3 2000 1 := by
  have hne : ¬ (2000 : ℚ) ≤ 0 := by norm_num
  have e2 : calculate_score 3 2000 2 = 3 := by
    unfold calculate_score
    rw [if_neg hne]
    have h : (3 : ℚ) / 2000 * 1000 * 2 = ((3 : ℤ) : ℚ) := by norm_num
    rw [h, pyint_intCast]
  have e1 : calculate_score 3 2000 1 = 1 := by
    unfold calculate_score
    rw [if_neg hne]
    have h : (3 : ℚ) / 2000 * 1000 * 1 = 3 / 2 := by norm_num
    rw [h, pyint_of_nonneg (by norm_num), Int.floor_eq_iff]
    norm_num
  refine ⟨e2, by rw [e1]; norm_num, by rw [e2, e1]; norm_num⟩

/-- C2 (amended): the scale factor distributes exactly over the scoring
whenever the unscaled pre-floor value `baseline / actual * 1000` is an
integer (as in the spec's own example); then for every `N ≥ 1`,
`calculate_score d a N = N * calculate_score d a 1`. -/
theorem calculate_score_scale_amended (d a : ℚ) (N : ℕ) (k : ℤ)
    (_hd : 0 < d) (ha : 0 < a) (_hN : 1 ≤ N) (hk : d / a * 1000 = (k : ℚ)) :
    calculate_score d a N = N * calculate_score d a 1 := by
  have hna : ¬ a ≤ 0 := not_le.mpr ha
  unfold calculate_score
  rw [if_neg hna, if_neg hna, hk, mul_one, pyint_intCast]
  have : (k : ℚ) * N = ((k * N : ℤ) : ℚ) := by push_cast; ring
  rw [this, pyint_intCast]
  ring

/-- Witness for C2 (amended) at the spec's example: baseline `0.05`,
actual `0.025`, scale `4` gives `8000 = 4 · 2000`. -/
theorem calculate_score_scale_amended_witness :
    calculate_score (1/20) (1/40) 4 = 4 * calculate_score (1/20) (1/40) 1 :=
  calculate_score_scale_amended (1/20) (1/40) 4 2000 (by norm_num) (by norm_num)
    (by norm_num) (by norm_num)

/-! ## Contended shared counter (`workloads_mc.py`) -/

/-- `_worker_contention` (workloads_mc.py lines 83-86): one worker performs
`iterations` lock-protected increments of the shared value. -/
def worker_contention : ℕ → ℕ → ℕ
  | 0, shared_val => shared_val
  | n + 1, shared_val => worker_contention n (shared_val + 1)

/-- One lock-protected increment of the shared counter taken by worker `_w`:
the lock makes each increment atomic, so the new value never depends on which
worker took the step. -/
def contention_step (shared_val : ℕ) (_w : ℕ) : ℕ := shared_val + 1

/-- `MCWorkloads.run_contention` (workloads_mc.py lines 147-163): `P` worker
processes each run `_worker_contention` for `chunk_iters = max(1, iterations //
num_processes)` iterations against a shared value starting at `0`; after the
joins the shared value is returned.  Each increment happens under the one
shared lock, so increments are atomic and commute and the joined value equals
the sequential composition of the workers (`contention_sched_independent`
proves the independence from the interleaving). -/
def run_contention (num_processes iterations : ℕ) : ℕ :=
  let chunk_iters := max 1 (iterations / num_processes)
  (List.range num_processes).foldl (fun v _ => worker_contention chunk_iters v) 0

theorem worker_contention_eq (n v : ℕ) : worker_contention n v = v + n := by
  induction n generalizing v with
  | zero => rfl
  | succ n ih =>
    rw [worker_contention, ih]
    omega

theorem contention_foldl_eq (s : List ℕ) (v : ℕ) :
    s.foldl contention_step v = v + s.length := by
  induction s generalizing v with
  | nil => rfl
  | cons w s ih =>
    rw [List.foldl_cons, List.length_cons, ih]
    unfold contention_step
    omega

theorem run_contention_eq (P I : ℕ) : run_contention P I = P * max 1 (I / P) := by
  unfold run_contention
  have h : ∀ (l : List ℕ) (v : ℕ),
      l.foldl (fun v _ => worker_contention (max 1 (I / P)) v) v =
        v + l.length * max 1 (I / P) := by
    intro l
    induction l with
    | nil => intro v; simp
    | cons w l ih =>
      intro v
      rw [List.foldl_cons, ih, worker_contention_eq, List.length_cons]
      ring
  rw [h, List.length_range]
  omega

/-- Any interleaving of the lock-protected increments in which each of the `P`
workers takes exactly its `max 1 (I / P)` increments yields the value
`run_contention` returns. -/
theorem contention_sched_independent (P I : ℕ) (sched : List ℕ)
    (hcount : ∀ w < P, sched.count w = max 1 (I / P))
    (hmem : ∀ w ∈ sched, w < P) :
    sched.foldl contention_step 0 = run_contention P I := by
  rw [contention_foldl_eq, run_contention_eq, Nat.zero_add]
  have hlen : sched.length = ∑ w ∈ Finset.range P, sched.count w := by
    classical
    have hsub : sched.toFinset ⊆ Finset.range P := by
      intro w hw
      rw [List.mem_toFinset] at hw
      exact Finset.mem_range.mpr (hmem w hw)
    calc sched.length = ∑ w ∈ sched.toFinset, sched.count w := by
          rw [← Multiset.coe_card, ← Multiset.toFinset_sum_count_eq]
          simp
      _ = ∑ w ∈ Finset.range P, sched.count w := by
          refine Finset.sum_subset hsub ?_
          intro w _ hw
          rw [List.count_eq_zero]
          intro hmemw
          exact hw (List.mem_toFinset.mpr hmemw)
  rw [hlen]
  rw [Finset.sum_congr rfl fun w hw => hcount w (Finset.mem_range.mp hw)]
  simp [mul_comm]

/-- C3 fails on the code when `I < P`: for `P = 2` worker processes and budget
`I = 1`, `chunk_iters = max(1, 1 // 2) = 1`, so the joined value is `2`,
not `P * (I // P) = 0`. -/
theorem run_contention_counterexample :
    run_contention 2 1 = 2 ∧ 2 * (1 / 2) = 0 ∧ run_contention 2 1 ≠ 2 * (1 / 2) := by
  refine ⟨by decide, by decide, by decide⟩

/-- C3 (amended): each of the `P` workers increments the shared counter exactly
`max 1 (I // P)` times under the lock, so after all joins the shared value is
`P * max 1 (I // P)` — independently of the interleaving `sched` of the
lock-protected increments — and it equals `P * (I // P)` whenever `I ≥ P`. -/
theorem run_contention_spec (P I : ℕ) (_hP : 1 ≤ P) (sched : List ℕ)
    (hcount : ∀ w < P, sched.count w = max 1 (I / P))
    (hmem : ∀ w ∈ sched, w < P) :
    run_contention P I = P * max 1 (I / P) ∧
    run_contention P I = sched.foldl contention_step 0 ∧
    (P ≤ I → run_contention P I = P * (I / P)) := by
  refine ⟨run_contention_eq P I, (contention_sched_independent P I sched hcount hmem).symm, ?_⟩
  intro hPI
  have h1 : 1 ≤ I / P := by
    rcases Nat.eq_zero_or_pos P with h | h
    · omega
    · exact (Nat.one_le_div_iff h).mpr hPI
  rw [run_contention_eq P I, Nat.max_eq_right h1]

/-- Witness for C3 (amended) at `P = 2`, `I = 4` with the interleaving
`[0, 1, 1, 0]`: the joined value is `4 = 2 * (4 // 2)`. -/
theorem run_contention_spec_witness :
    run_contention 2 4 = 2 * max 1 (4 / 2) ∧
    run_contention 2 4 = [0, 1, 1, 0].foldl contention_step 0 ∧
    run_contention 2 4 = 2 * (4 / 2) := by
  obtain ⟨h1, h2, h3⟩ :=
    run_contention_spec 2 4 (by decide) [0, 1, 1, 0] (by decide) (by decide)
  exact ⟨h1, h2, h3 (by decide)⟩

/-! ## Bounded producer/consumer (`workloads_mc.py` lines 88-97 and 165-192) -/

/-- `n_prod = max(1, self.num_processes // 2)` (workloads_mc.py line 171). -/
def n_prod (num_processes : ℕ) : ℕ := max 1 (num_processes / 2)

/-- `n_cons = max(1, self.num_processes - n_prod)` (workloads_mc.py line 172). -/
def n_cons (num_processes : ℕ) : ℕ := max 1 (num_processes - n_prod num_processes)

/-- `items_per_prod = items // n_prod` (workloads_mc.py line 174). -/
def items_per_prod (num_processes items : ℕ) : ℕ := items / n_prod num_processes

/-- `total_items = items_per_prod * n_prod` (workloads_mc.py line 175). -/
def total_items (num_processes items : ℕ) : ℕ :=
  items_per_prod num_processes items * n_prod num_processes

/-- `items_per_cons = total_items // n_cons` (workloads_mc.py line 176). -/
def items_per_cons (num_processes items : ℕ) : ℕ :=
  total_items num_processes items / n_cons num_processes

/-- `MCWorkloads.run_producer_consumer` starts the producer and consumer
processes, joins them all, and returns `total_items`
(workloads_mc.py lines 178-192). -/
def run_producer_consumer (num_processes items : ℕ) : ℕ :=
  total_items num_processes items

/-- The shared state of one producer/consumer run: how many `queue.put` calls
each producer still has to make (`_worker_producer`, workloads_mc.py lines
88-90), how many `queue.get` calls each consumer still has to make
(`_worker_consumer`, lines 92-97), and how many items sit in the shared
queue. -/
structure PCState where
  prodRem : List ℕ
  consRem : List ℕ
  queue : ℕ
deriving DecidableEq

/-- Interleaved small-step semantics of the producer/consumer processes: a
producer with puts left enqueues one item (a put never blocks); a consumer
with gets left dequeues one item, and can take no step while the queue is
empty (`queue.get` blocks). -/
inductive PCStep : PCState → PCState → Prop
  | put (p c : List ℕ) (q i n : ℕ) (hi : p.get? i = some (n + 1)) :
      PCStep ⟨p, c, q⟩ ⟨p.set i n, c, q + 1⟩
  | get (p c : List ℕ) (q j m : ℕ) (hj : c.get? j = some (m + 1)) :
      PCStep ⟨p, c, q + 1⟩ ⟨p, c.set j m, q⟩

/-- The state right after `run_producer_consumer` has started all workers:
`n_prod` producers each with `items_per_prod` puts to do, `n_cons` consumers
each with `items_per_cons` gets to do, and an empty queue. -/
def pcInit (num_processes items : ℕ) : PCState :=
  ⟨List.replicate (n_prod num_processes) (items_per_prod num_processes items),
   List.replicate (n_cons num_processes) (items_per_cons num_processes items), 0⟩

/-- Every producer and every consumer has finished its loop, so every
`p.join()` in `run_producer_consumer` returns. -/
def PCDone (st : PCState) : Prop :=
  (∀ x ∈ st.prodRem, x = 0) ∧ (∀ x ∈ st.consRem, x = 0)

/-- Remaining work; every step strictly decreases it. -/
def pcMeasure (st : PCState) : ℕ := st.prodRem.sum + st.consRem.sum

/-- No producer or consumer can take a step. -/
def PCStuck (st : PCState) : Prop := ∀ st', ¬ PCStep st st'

/-- Conservation invariant of the producer/consumer system: items in the queue
plus puts still to come balance items already consumed against gets still to
come.  `total` is the number of items the producers enqueue in all,
`consTotal` the number of gets the consumers perform in all. -/
def PCInv (total consTotal : ℕ) (st : PCState) : Prop :=
  st.queue + st.prodRem.sum + consTotal = total + st.consRem.sum

theorem sum_set_get? {l : List ℕ} {i m : ℕ} (h : l.get? i = some m) (n : ℕ) :
    (l.set i n).sum + m = l.sum + n := by
  induction l generalizing i with
  | nil => simp at h
  | cons x l ih =>
    cases i with
    | zero =>
      simp only [List.get?] at h
      cases h
      simp [List.set]
      omega
    | succ i =>
      simp only [List.get?] at h
      have := ih h
      simp [List.set, List.sum_cons]
      omega

theorem pcStep_measure {st st' : PCState} (h : PCStep st st') :
    pcMeasure st' < pcMeasure st := by
  cases h with
  | put p c q i n hi =>
    have := sum_set_get? hi n
    unfold pcMeasure
    simp only
    omega
  | get p c q j m hj =>
    have := sum_set_get? hj m
    unfold pcMeasure
    simp only
    omega

theorem pcStep_inv {total consTotal : ℕ} {st st' : PCState}
    (h : PCStep st st') (hinv : PCInv total consTotal st) :
    PCInv total consTotal st' := by
  cases h with
  | put p c q i n hi =>
    have := sum_set_get? hi n
    unfold PCInv at hinv ⊢
    simp only at hinv ⊢
    omega
  | get p c q j m hj =>
    have := sum_set_get? hj m
    unfold PCInv at hinv ⊢
    simp only at hinv ⊢
    omega

theorem pcStuck_iff (st : PCState) :
    PCStuck st ↔ (∀ x ∈ st.prodRem, x = 0) ∧ (st.queue = 0 ∨ ∀ x ∈ st.consRem, x = 0) := by
  obtain ⟨p, c, q⟩ := st
  constructor
  · intro h
    refine ⟨?_, ?_⟩
    · intro x hx
      by_contra hx0
      obtain ⟨i, hi⟩ := List.mem_iff_get?.mp hx
      obtain ⟨n, rfl⟩ : ∃ n, x = n + 1 := ⟨x - 1, by omega⟩
      exact h _ (PCStep.put p c q i n hi)
    · by_cases hq : q = 0
      · exact Or.inl hq
      · right
        intro x hx
        by_contra hx0
        obtain ⟨j, hj⟩ := List.mem_iff_get?.mp hx
        obtain ⟨n, rfl⟩ : ∃ n, x = n + 1 := ⟨x - 1, by omega⟩
        obtain ⟨q', rfl⟩ : ∃ q', q = q' + 1 := ⟨q - 1, by omega⟩
        exact h _ (PCStep.get p c q' j n hj)
  · rintro ⟨hp, hc⟩ st' hstep
    cases hstep with
    | put p c q i n hi =>
      have hm : n + 1 ∈ p := List.get?_mem hi
      have := hp _ hm
      omega
    | get p c q j m hj =>
      rcases hc with hq | hc
      · simp at hq
      · have hm : m + 1 ∈ c := List.get?_mem hj
        have := hc _ hm
        omega

theorem pcReachable_inv {init st : PCState} {total consTotal : ℕ}
    (h : Relation.ReflTransGen PCStep init st) (hinit : PCInv total consTotal init) :
    PCInv total consTotal st := by
  induction h with
  | refl => exact hinit
  | tail _ hstep ih => exact pcStep_inv hstep ih

theorem pcInit_inv (P items : ℕ) :
    PCInv (total_items P items) (n_cons P * items_per_cons P items) (pcInit P items) := by
  unfold PCInv pcInit
  simp [List.sum_replicate, smul_eq_mul, total_items]
  ring

/-- C8: `run_producer_consumer` splits the `P` workers as
`producers = max(1, P // 2)` and `consumers = max(1, P - producers)`, starts
each producer with `itemsPerProducer = items // producers` items to emit into
the shared queue (so the producers enqueue `totalItems` in all), each consumer
with `totalItems // consumers` items to drain, and returns
`totalItems = itemsPerProducer * producers`. -/
theorem run_producer_consumer_spec (P items : ℕ) (_hP : 1 ≤ P) :
    n_prod P = max 1 (P / 2) ∧
    n_cons P = max 1 (P - n_prod P) ∧
    items_per_prod P items = items / n_prod P ∧
    total_items P items = items_per_prod P items * n_prod P ∧
    items_per_cons P items = total_items P items / n_cons P ∧
    (pcInit P items).prodRem = List.replicate (n_prod P) (items_per_prod P items) ∧
    (pcInit P items).prodRem.sum = total_items P items ∧
    (pcInit P items).consRem = List.replicate (n_cons P) (items_per_cons P items) ∧
    run_producer_consumer P items = total_items P items := by
  refine ⟨rfl, rfl, rfl, rfl, rfl, rfl, ?_, rfl, rfl⟩
  simp [pcInit, List.sum_replicate, smul_eq_mul, total_items]
  ring

/-- Witness for C8 at `P = 4`, `items = 10`: 2 producers with 5 items each,
2 consumers with 5 items each, 10 items in total. -/
theorem run_producer_consumer_spec_witness :
    n_prod 4 = max 1 (4 / 2) ∧
    n_cons 4 = max 1 (4 - n_prod 4) ∧
    items_per_prod 4 10 = 10 / n_prod 4 ∧
    total_items 4 10 = items_per_prod 4 10 * n_prod 4 ∧
    items_per_cons 4 10 = total_items 4 10 / n_cons 4 ∧
    (pcInit 4 10).prodRem = List.replicate (n_prod 4) (items_per_prod 4 10) ∧
    (pcInit 4 10).prodRem.sum = total_items 4 10 ∧
    (pcInit 4 10).consRem = List.replicate (n_cons 4) (items_per_cons 4 10) ∧
    run_producer_consumer 4 10 = total_items 4 10 :=
  run_producer_consumer_spec 4 10 (by decide)

/-- C10: the gets the consumers collectively perform,
`n_cons * (totalItems // n_cons)`, never exceed the `totalItems` puts the
producers perform; every step of the interleaved system strictly decreases the
remaining work, so every execution from the initial state reaches a stuck
state; and every reachable stuck state has all producers and all consumers
finished (so `run_producer_consumer` joins them all and terminates), with
exactly the remainder `totalItems % n_cons` left undelivered in the queue. -/
theorem producer_consumer_terminates (P items : ℕ) :
    n_cons P * items_per_cons P items ≤ total_items P items ∧
    (∀ st st', PCStep st st' → pcMeasure st' < pcMeasure st) ∧
    (∀ st, Relation.ReflTransGen PCStep (pcInit P items) st → PCStuck st →
      PCDone st ∧ st.queue = total_items P items % n_cons P) := by
  have hle : n_cons P * items_per_cons P items ≤ total_items P items := by
    unfold items_per_cons
    rw [mul_comm]
    exact Nat.div_mul_le_self _ _
  have hdm : n_cons P * items_per_cons P items + total_items P items % n_cons P
      = total_items P items := by
    unfold items_per_cons
    exact Nat.div_add_mod _ _
  refine ⟨hle, fun _ _ h => pcStep_measure h, ?_⟩
  intro st hreach hstuck
  have hinv := pcReachable_inv hreach (pcInit_inv P items)
  obtain ⟨hp, hc⟩ := (pcStuck_iff st).mp hstuck
  have hpsum : st.prodRem.sum = 0 := List.sum_eq_zero hp
  unfold PCInv at hinv
  rcases hc with hq | hc
  · have hcsum : st.consRem.sum = 0 := by omega
    have hcall : ∀ x ∈ st.consRem, x = 0 := List.sum_eq_zero_iff.mp hcsum
    exact ⟨⟨hp, hcall⟩, by omega⟩
  · have hcsum : st.consRem.sum = 0 := List.sum_eq_zero hc
    exact ⟨⟨hp, hc⟩, by omega⟩

/-- Witness for C10 at `P = 1`, `items = 1` (one producer, one consumer, one
item): the execution put–get reaches the stuck state with everything done and
an empty queue. -/
theorem producer_consumer_terminates_witness :
    PCDone ⟨[0], [0], 0⟩ ∧ (PCState.mk [0] [0] 0).queue = total_items 1 1 % n_cons 1 := by
  have h1 : PCStep (pcInit 1 1) ⟨[0], [1], 1⟩ := PCStep.put [1] [1] 0 0 0 rfl
  have h2 : PCStep ⟨[0], [1], 1⟩ ⟨[0], [0], 0⟩ := PCStep.get [0] [1] 0 0 0 rfl
  have hchain : Relation.ReflTransGen PCStep (pcInit 1 1) ⟨[0], [0], 0⟩ :=
    Relation.ReflTransGen.head h1 (Relation.ReflTransGen.head h2 Relation.ReflTransGen.refl)
  have hstuck : PCStuck ⟨[0], [0], 0⟩ := by
    rw [pcStuck_iff]
    exact ⟨by decide, Or.inl rfl⟩
  exact (producer_consumer_terminates 1 1).2.2 ⟨[0], [0], 0⟩ hchain hstuck

/-! ## The engine (`benchmark_engine.py`) -/

/-- A workload descriptor as the phase runners consume it: the tuple
`(name, func, args, baseline)` of the task lists in `run_suite`
(benchmark_engine.py lines 156-182).  The invocation `func(*args)` is an
external plug-in; its observable behaviour for the runner is its `outcome`:
`some d` when it returns after wall-clock duration `d`, `none` when it raises
an exception. -/
structure WorkloadDescriptor where
  name : String
  baseline : ℚ
  outcome : Option ℚ
deriving DecidableEq

/-- The result-map entry a task contributes when it does not raise. -/
def scoreEntry (scale : ℚ) (task : WorkloadDescriptor) : Option (String × ℤ) :=
  task.outcome.map fun d => (task.name, calculate_score task.baseline d scale)

/-- The value the engine's `running` flag holds at construction
(`self.running = False`, benchmark_engine.py line 26). -/
def engine_init_running : Bool := false

/-- The value the `running` flag yields at its `i`-th read after `run_suite`
set it true on entry: `stop()` (benchmark_engine.py lines 231-232) is the only
writer of `False`, nothing sets the flag back to `True` during the run, and
`stopAt = some s` says the concurrent `stop()` call landed just before the
`s`-th read (`stopAt = none`: `stop` is never called). -/
def runningFlag (stopAt : Option ℕ) (i : ℕ) : Bool :=
  match stopAt with
  | none => true
  | some s => decide (i < s)

/-- The descriptor loop shared by `_run_single_core_pass` (lines 44-62),
`_run_multi_core_pass` (lines 68-120) and `_run_extra_pass` (lines 128-148):
for each task, read the `running` flag (`if not self.running: break`) — `t`
counts the reads taken so far — then invoke the workload; on an exception log
and `continue` with no entry, otherwise record
`calculate_score(baseline, duration, scale)` under the task's name.  Returns
the result map and the updated read count. -/
def runPass (flag : ℕ → Bool) (scale : ℚ) : List WorkloadDescriptor → ℕ → List (String × ℤ) × ℕ
  | [], t => ([], t)
  | task :: rest, t =>
    if flag t then
      match task.outcome with
      | none => runPass flag scale rest (t + 1)
      | some d =>
        let r := runPass flag scale rest (t + 1)
        ((task.name, calculate_score task.baseline d scale) :: r.1, r.2)
    else ([], t + 1)

/-- `avg` inside `run_suite` (benchmark_engine.py line 210):
`int(sum(lst)/len(lst)) if lst else 0`. -/
def avg (lst : List ℤ) : ℤ :=
  if lst = [] then 0 else pyint ((lst.sum : ℚ) / (lst.length : ℚ))

/-- The exception a worker-pool allocation failure raises; `run_suite` has no
handler for it. -/
inductive SuiteError
  | poolCreation
deriving DecidableEq

/-- The dict `run_suite` returns (benchmark_engine.py lines 222-229). -/
structure SuiteResult where
  sc_score : ℤ
  mc_score : ℤ
  extra_score : ℤ
  details_sc : List (String × ℤ)
  details_mc : List (String × ℤ)
  details_ex : List (String × ℤ)
deriving DecidableEq

/-- Phase 1 wrapper: `if run_sc and self.running:` then
`_run_single_core_pass(sc_workloads)` (benchmark_engine.py lines 191-193);
the sequential pass scores with scale 1. -/
def run_single_core_phase (flag : ℕ → Bool) (run_sc : Bool) (tasks : List WorkloadDescriptor) :
    List (String × ℤ) × ℕ :=
  if run_sc then
    if flag 0 then runPass flag 1 tasks 1 else ([], 1)
  else ([], 0)

/-- Phase 2 wrapper: `if run_mc and self.running:` then
`_run_multi_core_pass(sc_workloads)` (lines 196-198), which first allocates
`multiprocessing.Pool(self.num_cores)` (line 67) — `poolOk = false` models
that allocation raising — and then runs the loop with
`scale_factor = self.num_cores` (line 117). -/
def run_multi_core_phase (flag : ℕ → Bool) (run_mc poolOk : Bool) (num_cores : ℕ)
    (tasks : List WorkloadDescriptor) (t : ℕ) : Except SuiteError (List (String × ℤ) × ℕ) :=
  if run_mc then
    if flag t then
      if poolOk then Except.ok (runPass flag (num_cores : ℚ) tasks (t + 1))
      else Except.error SuiteError.poolCreation
    else Except.ok ([], t + 1)
  else Except.ok ([], t)

/-- Phase 3 wrapper: `if run_extra and self.running:` then
`_run_extra_pass(extra_workloads)` (lines 201-203); the extra pass scores with
scale 1 (line 144). -/
def run_extra_phase (flag : ℕ → Bool) (run_extra : Bool) (tasks : List WorkloadDescriptor) (t : ℕ) :
    List (String × ℤ) × ℕ :=
  if run_extra then
    if flag t then runPass flag 1 tasks (t + 1) else ([], t + 1)
  else ([], t)

/-- The tail of `run_suite` (lines 205-229): one more read of the flag
(`if not self.running: return None`), then the aggregation into the result
dict. -/
def finishSuite (flag : ℕ → Bool) (t : ℕ)
    (sc_scores mc_scores ex_scores : List (String × ℤ)) : Option SuiteResult × ℕ :=
  if flag t then
    (some ⟨avg (sc_scores.map Prod.snd), avg (mc_scores.map Prod.snd),
           avg (ex_scores.map Prod.snd), sc_scores, mc_scores, ex_scores⟩, t + 1)
  else (none, t + 1)

/-- `BenchmarkEngine.run_suite` (benchmark_engine.py lines 150-229): sets
`running = True`, runs the three phases in order and aggregates.  The value
is the returned dict (`none` on cancellation) — or the propagated
pool-allocation exception — together with the total number of reads of the
`running` flag taken after entry. -/
def run_suite (flag : ℕ → Bool) (poolOk : Bool) (num_cores : ℕ)
    (sc_workloads extra_workloads : List WorkloadDescriptor) (run_sc run_mc run_extra : Bool) :
    Except SuiteError (Option SuiteResult) × ℕ :=
  let p1 := run_single_core_phase flag run_sc sc_workloads
  match run_multi_core_phase flag run_mc poolOk num_cores sc_workloads p1.2 with
  | Except.error e => (Except.error e, p1.2 + 1)
  | Except.ok p2 =>
    let p3 := run_extra_phase flag run_extra extra_workloads p2.2
    let fin := finishSuite flag p3.2 p1.1 p2.1 p3.1
    (Except.ok fin.1, fin.2)

theorem runPass_all_false (flag : ℕ → Bool) (scale : ℚ) (tasks : List WorkloadDescriptor)
    (t : ℕ) (h : flag t = false) : (runPass flag scale tasks t).1 = [] := by
  cases tasks with
  | nil => rfl
  | cons task rest => simp [runPass, h]

theorem runPass_true_of (flag : ℕ → Bool) (scale : ℚ) (tasks : List WorkloadDescriptor)
    (t : ℕ) (h : ∀ i, i < tasks.length → flag (t + i) = true) :
    (runPass flag scale tasks t).1 = tasks.filterMap (scoreEntry scale) := by
  induction tasks generalizing t with
  | nil => rfl
  | cons task rest ih =>
    have h0 : flag t = true := by simpa using h 0 (by simp)
    have hrest : ∀ i, i < rest.length → flag (t + 1 + i) = true := by
      intro i hi
      have hh := h (i + 1) (by simp; omega)
      rwa [show t + (i + 1) = t + 1 + i by omega] at hh
    rw [runPass, if_pos h0, List.filterMap_cons]
    cases hout : task.outcome with
    | none =>
      simp only [hout, scoreEntry, Option.map_none']
      exact ih (t + 1) hrest
    | some d =>
      simp only [hout, scoreEntry, Option.map_some']
      rw [← ih (t + 1) hrest]

theorem runPass_early_stop (flag : ℕ → Bool) (scale : ℚ) (tasks : List WorkloadDescriptor)
    (t k : ℕ)
    (htrue : ∀ i, i ≤ k → flag (t + i) = true)
    (hfalse : ∀ i, k < i → flag (t + i) = false) :
    (runPass flag scale tasks t).1 = (tasks.take (k + 1)).filterMap (scoreEntry scale) := by
  induction tasks generalizing t k with
  | nil => simp [runPass]
  | cons task rest ih =>
    have h0 : flag t = true := by simpa using htrue 0 (Nat.zero_le k)
    rw [runPass, if_pos h0, List.take_succ_cons, List.filterMap_cons]
    cases k with
    | zero =>
      have hrest : (runPass flag scale rest (t + 1)).1 = [] := by
        apply runPass_all_false
        simpa using hfalse 1 (by omega)
      cases hout : task.outcome with
      | none => simp [scoreEntry, hout, hrest]
      | some d => simp [scoreEntry, hout, hrest]
    | succ k' =>
      have htrue' : ∀ i, i ≤ k' → flag (t + 1 + i) = true := by
        intro i hi
        have hh := htrue (i + 1) (by omega)
        rwa [show t + (i + 1) = t + 1 + i by omega] at hh
      have hfalse' : ∀ i, k' < i → flag (t + 1 + i) = false := by
        intro i hi
        have hh := hfalse (i + 1) (by omega)
        rwa [show t + (i + 1) = t + 1 + i by omega] at hh
      cases hout : task.outcome with
      | none =>
        simp only [scoreEntry, hout, Option.map_none']
        exact ih (t + 1) k' htrue' hfalse'
      | some d =>
        simp only [scoreEntry, hout, Option.map_some']
        rw [ih (t + 1) k' htrue' hfalse']

/-- C4: in the descriptor loop shared by all three phase runners, if `stop()`
lands while descriptor `k` executes (every flag read up to and including the
one before descriptor `k` was true, every later read false), then descriptor
`k` still finishes and its score is in the phase's result map, the map equals
the one of an uncancelled run over the first `k+1` descriptors only, and any
later loop over any descriptor list (every flag read being false from then on)
executes nothing and records nothing. -/
theorem cancellation_at_descriptor_boundary (scale : ℚ) (tasks : List WorkloadDescriptor)
    (flag : ℕ → Bool) (t k : ℕ) (d : ℚ) (hk : k < tasks.length)
    (htrue : ∀ i, i ≤ k → flag (t + i) = true)
    (hfalse : ∀ i, k < i → flag (t + i) = false)
    (hd : (tasks.get ⟨k, hk⟩).outcome = some d) :
    (runPass flag scale tasks t).1 = (runPass (fun _ => true) scale (tasks.take (k + 1)) 0).1 ∧
    ((tasks.get ⟨k, hk⟩).name, calculate_score (tasks.get ⟨k, hk⟩).baseline d scale)
      ∈ (runPass flag scale tasks t).1 ∧
    (∀ (scale' : ℚ) (tasks' : List WorkloadDescriptor) (t' : ℕ), t + k < t' →
      (runPass flag scale' tasks' t').1 = []) := by
  have e1 := runPass_early_stop flag scale tasks t k htrue hfalse
  have e2 := runPass_true_of (fun _ => true) scale (tasks.take (k + 1)) 0 (fun _ _ => rfl)
  refine ⟨by rw [e1, e2], ?_, ?_⟩
  · rw [e1, List.take_succ, List.getElem?_eq_getElem hk, List.filterMap_append]
    refine List.mem_append_right _ ?_
    have hd' : tasks[k].outcome = some d := by simpa [List.get_eq_getElem] using hd
    simp [scoreEntry, hd', List.get_eq_getElem]
  · intro scale' tasks' t' ht'
    apply runPass_all_false
    have hh := hfalse (t' - t) (by omega)
    rwa [show t + (t' - t) = t' by omega] at hh

/-- Three descriptors with the names and baselines of the head of
`sc_workloads` (benchmark_engine.py lines 157-159) and sample durations,
for the cancellation witness. -/
def demoTasks : List WorkloadDescriptor :=
  [⟨"Integer ALU", 1/20, some (1/25)⟩, ⟨"Branching", 2/25, some (1/10)⟩,
   ⟨"String Proc", 3/20, some (1/5)⟩]

/-- Witness for C4: `stop()` lands during descriptor 1 of `demoTasks`
(the flag reads true at reads 0 and 1 and false from read 2 on): descriptor 1
is still scored, the result map is that of an uncancelled run over the first
two descriptors, and a later loop starting at read 5 records nothing. -/
theorem cancellation_at_descriptor_boundary_witness :
    (runPass (runningFlag (some 2)) 1 demoTasks 0).1 =
      (runPass (fun _ => true) 1 (demoTasks.take 2) 0).1 ∧
    ("Branching", calculate_score (2/25) (1/10) 1)
      ∈ (runPass (runningFlag (some 2)) 1 demoTasks 0).1 ∧
    (runPass (runningFlag (some 2)) 1 demoTasks 5).1 = [] := by
  obtain ⟨h1, h2, h3⟩ :=
    cancellation_at_descriptor_boundary 1 demoTasks (runningFlag (some 2)) 0 1 (1/10)
      (by decide)
      (by intro i hi; simp [runningFlag]; omega)
      (by intro i hi; simp [runningFlag]; omega)
      rfl
  exact ⟨h1, h2, h3 1 demoTasks 5 (by omega)⟩

theorem filterMap_eraseIdx_of_none {α β : Type} (f : α → Option β) (l : List α) (i : ℕ)
    (hi : i < l.length) (h : f (l.get ⟨i, hi⟩) = none) :
    l.filterMap f = (l.eraseIdx i).filterMap f := by
  induction l generalizing i with
  | nil => simp at hi
  | cons a l ih =>
    cases i with
    | zero => simp_all [List.filterMap_cons]
    | succ i =>
      have hlen : i < l.length := by simpa using hi
      have hh : f (l.get ⟨i, hlen⟩) = none := by simpa using h
      have := ih i hlen hh
      simp only [List.eraseIdx_cons_succ, List.filterMap_cons]
      cases hfa : f a <;> simp [this]

/-- C6: a descriptor whose invocation raises (in any of the three phase
loops, here an uncancelled run of the shared loop at any scale) is absent
from the phase's result map — in particular it is not present with score 0 —
and the rest of the phase runs exactly as if the descriptor were not in the
list. -/
theorem exception_drops_descriptor (scale : ℚ) (tasks : List WorkloadDescriptor) (t i : ℕ)
    (hi : i < tasks.length)
    (hraise : (tasks.get ⟨i, hi⟩).outcome = none)
    (hnodup : (tasks.map WorkloadDescriptor.name).Nodup) :
    (tasks.get ⟨i, hi⟩).name ∉ ((runPass (fun _ => true) scale tasks t).1.map Prod.fst) ∧
    (runPass (fun _ => true) scale tasks t).1 =
      (runPass (fun _ => true) scale (tasks.eraseIdx i) t).1 := by
  rw [runPass_true_of (fun _ => true) scale tasks t (fun _ _ => rfl),
    runPass_true_of (fun _ => true) scale (tasks.eraseIdx i) t (fun _ _ => rfl)]
  constructor
  · intro hmem
    obtain ⟨entry, hentry, hfst⟩ := List.mem_map.mp hmem
    obtain ⟨task, htask, hsome⟩ := List.mem_filterMap.mp hentry
    obtain ⟨dur, hdur⟩ : ∃ dur, task.outcome = some dur := by
      cases hout : task.outcome with
      | none => rw [scoreEntry, hout] at hsome; simp at hsome
      | some dur => exact ⟨dur, rfl⟩
    have hname : task.name = tasks[i].name := by
      rw [scoreEntry, hdur] at hsome
      simp only [Option.map_some'] at hsome
      have hpair := Option.some.inj hsome
      rw [← hpair] at hfst
      simpa [List.get_eq_getElem] using hfst
    obtain ⟨⟨j, hj⟩, hget⟩ := List.mem_iff_get.mp htask
    replace hget : tasks[j] = task := by simpa [List.get_eq_getElem] using hget
    replace hraise : tasks[i].outcome = none := by simpa [List.get_eq_getElem] using hraise
    have hne : j ≠ i := by
      intro hji
      subst hji
      rw [hget] at hraise
      rw [hraise] at hdur
      exact Option.noConfusion hdur
    have hinj := List.nodup_iff_injective_get.mp hnodup
    have hji2 : (⟨j, by simpa using hj⟩ : Fin (tasks.map WorkloadDescriptor.name).length)
        = ⟨i, by simpa using hi⟩ := by
      apply hinj
      simp only [List.get_eq_getElem, List.getElem_map]
      rw [hget]
      exact hname
    exact hne (by simpa using congrArg Fin.val hji2)
  · exact filterMap_eraseIdx_of_none (scoreEntry scale) tasks i hi
      (by rw [scoreEntry, hraise]; rfl)

/-- Three descriptors, the middle one raising, for the exception witness
(names and baselines from benchmark_engine.py lines 160-162). -/
def demoFailTasks : List WorkloadDescriptor :=
  [⟨"Hashing", 3/25, some (1/10)⟩, ⟨"Encryption", 1/5, none⟩,
   ⟨"Compression", 9/50, some (1/4)⟩]

/-- Witness for C6: in an uncancelled sequential pass over `demoFailTasks`,
the raising descriptor `"Encryption"` gets no entry and the pass equals the
pass over the list without it. -/
theorem exception_drops_descriptor_witness :
    "Encryption" ∉ ((runPass (fun _ => true) 1 demoFailTasks 0).1.map Prod.fst) ∧
    (runPass (fun _ => true) 1 demoFailTasks 0).1 =
      (runPass (fun _ => true) 1 (demoFailTasks.eraseIdx 1) 0).1 := by
  obtain ⟨h1, h2⟩ := exception_drops_descriptor 1 demoFailTasks 0 1 (by decide) rfl (by decide)
  exact ⟨h1, h2⟩

theorem runningFlag_false_succ {stopAt : Option ℕ} {t : ℕ}
    (h : runningFlag stopAt t = false) : runningFlag stopAt (t + 1) = false := by
  cases stopAt with
  | none => simp [runningFlag] at h
  | some s =>
    simp only [runningFlag, decide_eq_false_iff_not, not_lt] at h ⊢
    omega

theorem run_suite_none_last_read (flag : ℕ → Bool) (poolOk : Bool) (cores : ℕ)
    (sc ex : List WorkloadDescriptor) (a b c : Bool)
    (h : (run_suite flag poolOk cores sc ex a b c).1 = Except.ok none) :
    ∃ t, (run_suite flag poolOk cores sc ex a b c).2 = t + 1 ∧ flag t = false := by
  unfold run_suite at h ⊢
  dsimp only at h ⊢
  cases hmc : run_multi_core_phase flag b poolOk cores sc
      (run_single_core_phase flag a sc).2 with
  | error e =>
    rw [hmc] at h
    simp at h
  | ok p2 =>
    dsimp only at h ⊢
    unfold finishSuite at h ⊢
    rw [hmc] at h
    dsimp only at h
    cases hf : flag (run_extra_phase flag c ex p2.2).2 with
    | true => rw [hf] at h; simp at h
    | false => exact ⟨(run_extra_phase flag c ex p2.2).2, by simp, hf⟩

/-- C5 fails on the code for normal completion: `run_suite` never resets
`running` to `False`; with `stop` never invoked, a suite over empty phase
selections completes normally (returning a `SuiteResult`) and the flag still
reads `true` at (and after) the return. -/
theorem running_flag_counterexample :
    (run_suite (runningFlag none) true 4 [] [] false false false).1 =
      Except.ok (some ⟨0, 0, 0, [], [], []⟩) ∧
    runningFlag none (run_suite (runningFlag none) true 4 [] [] false false false).2 = true :=
  ⟨rfl, rfl⟩

/-- C5 (amended): `running` is `False` at construction (so before the first
`run_suite`), `run_suite` sets it true on entry, and only `stop()` ever makes
it false again: when `run_suite` returns `None` after a cancellation the flag
reads false at the return, but when `stop` is never invoked the flag still
reads true when `run_suite` returns (normal completion does not reset it). -/
theorem running_flag_spec (stopAt : Option ℕ) (poolOk : Bool) (cores : ℕ)
    (sc ex : List WorkloadDescriptor) (a b c : Bool) :
    engine_init_running = false ∧
    ((run_suite (runningFlag stopAt) poolOk cores sc ex a b c).1 = Except.ok none →
      runningFlag stopAt ((run_suite (runningFlag stopAt) poolOk cores sc ex a b c).2)
        = false) ∧
    (stopAt = none →
      runningFlag stopAt ((run_suite (runningFlag stopAt) poolOk cores sc ex a b c).2)
        = true) := by
  refine ⟨rfl, ?_, ?_⟩
  · intro h
    obtain ⟨t, ht, hft⟩ := run_suite_none_last_read _ poolOk cores sc ex a b c h
    rw [ht]
    exact runningFlag_false_succ hft
  · intro h
    subst h
    rfl

/-- Witness for C5 (amended): `stop` lands before the first flag read, the
suite is cancelled, `run_suite` returns `None` and the flag reads false at the
return; and the constructed engine starts with the flag false. -/
theorem running_flag_spec_witness :
    engine_init_running = false ∧
    runningFlag (some 0)
      (run_suite (runningFlag (some 0)) true 2 [] [] false false false).2 = false := by
  obtain ⟨h0, h1, _⟩ := running_flag_spec (some 0) true 2 [] [] false false false
  exact ⟨h0, h1 rfl⟩

/-- C7 fails on the code: with pool allocation failing and all three phases
enabled, `run_suite` does not return a `SuiteResult` — the exception escapes
`run_suite` (modelled as the `Except.error` value), aborting the whole
suite. -/
theorem pool_failure_counterexample :
    (run_suite (runningFlag none) false 4
      [⟨"Integer ALU", 1/20, some (1/25)⟩] [] true true true).1 =
      Except.error SuiteError.poolCreation := rfl

/-- C7 (amended): `run_suite` has no handler around the throughput phase, so
whenever the throughput phase is enabled and reached uncancelled and the
worker-pool allocation fails, the exception propagates out of `run_suite`:
no `SuiteResult` is produced and the remaining phases never run — the failure
aborts the whole suite, not just that phase. -/
theorem pool_failure_aborts_suite (cores : ℕ) (sc ex : List WorkloadDescriptor)
    (run_sc run_extra : Bool) :
    (run_suite (runningFlag none) false cores sc ex run_sc true run_extra).1 =
      Except.error SuiteError.poolCreation := rfl

theorem runningFlag_none (i : ℕ) : runningFlag none i = true := rfl

theorem run_multi_core_phase_ok (b : Bool) (cores : ℕ) (sc : List WorkloadDescriptor)
    (t : ℕ) :
    run_multi_core_phase (runningFlag none) b true cores sc t =
      Except.ok (if b then runPass (runningFlag none) (cores : ℚ) sc (t + 1) else ([], t)) := by
  cases b <;> rfl

/-- C9: in an uncancelled run, `run_suite` returns a `SuiteResult` (unlike
cancellation, which returns `None`); a phase that is disabled by its run flag
or whose descriptor list is empty contributes an empty detail map and an
aggregated score of `0`, the average of an empty score list being `0` by
definition (`avg` is total and never raises). -/
theorem empty_or_disabled_phase (cores : ℕ) (sc ex : List WorkloadDescriptor) (a b c : Bool) :
    avg [] = 0 ∧
    ∃ r : SuiteResult,
      (run_suite (runningFlag none) true cores sc ex a b c).1 = Except.ok (some r) ∧
      ((a = false ∨ sc = []) → r.details_sc = [] ∧ r.sc_score = 0) ∧
      ((b = false ∨ sc = []) → r.details_mc = [] ∧ r.mc_score = 0) ∧
      ((c = false ∨ ex = []) → r.details_ex = [] ∧ r.extra_score = 0) := by
  refine ⟨rfl, ?_⟩
  unfold run_suite
  dsimp only
  rw [run_multi_core_phase_ok]
  dsimp only
  unfold finishSuite
  simp only [runningFlag_none, if_true]
  refine ⟨_, rfl, ?_, ?_, ?_⟩
  · rintro (ha | hsc)
    · subst ha
      exact ⟨rfl, rfl⟩
    · subst hsc
      cases a <;> exact ⟨rfl, rfl⟩
  · rintro (hb | hsc)
    · subst hb
      exact ⟨rfl, rfl⟩
    · subst hsc
      cases b <;> exact ⟨rfl, rfl⟩
  · rintro (hc | hex)
    · subst hc
      exact ⟨rfl, rfl⟩
    · subst hex
      cases c <;> exact ⟨rfl, rfl⟩

/-- Witness for C9 at a concrete run: the single-core phase enabled with an
empty descriptor list and the other phases disabled yields a `SuiteResult`
with an empty sc detail map and sc score `0`. -/
theorem empty_or_disabled_phase_witness :
    avg [] = 0 ∧
    (run_suite (runningFlag none) true 1 [] [] true false false).1 =
      Except.ok (some ⟨0, 0, 0, [], [], []⟩) ∧
    (⟨0, 0, 0, [], [], []⟩ : SuiteResult).details_sc = [] ∧
    (⟨0, 0, 0, [], [], []⟩ : SuiteResult).sc_score = 0 := by
  obtain ⟨h0, r, hr, h1, h2, h3⟩ := empty_or_disabled_phase 1 [] [] true false false
  obtain ⟨hd, hs⟩ := h1 (Or.inr rfl)
  exact ⟨h0, rfl, hd ▸ rfl, hs ▸ rfl⟩
